import Mathlib

/-!
Verification development for the surface morph engine of `mne/morph.py`.

Modelling conventions:
* Machine floats of the source are modelled as exact rationals; all linear
  algebra is exact.
* A scipy matrix (dense or sparse) is modelled extensionally as a total
  function of its indices; row and column counts are carried alongside where
  a claim needs them.
* The compacted data buffers of `_morph_buffer` (whose row `i` holds the data
  of vertex `idx_use[i]`) are modelled vertex-indexed: the buffer is a
  function of the vertex id and the active list `idx_use` is threaded next to
  it.  Trimming rows to an index list is therefore represented by threading
  the new list; scattering rows back to full width is represented by masking
  with the list.  This is the standard extensional reading of
  `_morph_mult`, whose own docstring states it computes
  `(e[:, idx_use_data] * data)[idx_use_out]`.
-/

namespace MneMorph

/-- Extensional matrix: entry function over row and column indices. -/
abbrev Mat : Type := ℕ → ℕ → ℚ

/-- The vector `data_sum = e * mult` of `_morph_buffer`, where `mult` is the
indicator vector of the active vertex list (`mult[idx_use] = 1`). -/
def dataSum (e : Mat) (n : ℕ) (idxUse : List ℕ) : ℕ → ℚ :=
  fun v => ∑ w ∈ Finset.range n, e v w * (if w ∈ idxUse then 1 else 0)

/-- The new active set `idx_use = np.where(data_sum)[0]`: all vertices whose
`data_sum` entry is nonzero, in increasing order. -/
def activeList (e : Mat) (n : ℕ) (idxUse : List ℕ) : List ℕ :=
  (List.range n).filter fun v => decide (dataSum e n idxUse v ≠ 0)

/-- One multiply pass of `_morph_mult`:
`data = (e[:, idx_use_data] * data)` in the vertex-indexed representation.
The source special-cases `len(idx_use_data) >= e.shape[1]`, where the full
product `e * data` is taken without column masking. -/
def morphMult (data : Mat) (e : Mat) (n : ℕ) (idxUseData : List ℕ) : Mat :=
  if idxUseData.length < n then
    fun v t => ∑ w ∈ Finset.range n, e v w * (if w ∈ idxUseData then data w t else 0)
  else
    fun v t => ∑ w ∈ Finset.range n, e v w * data w t

/-- The per-iteration normalization `data /= data_sum[idx_use][:, None]`
(dense) respectively `data.data /= data_sum[idx_use].repeat(...)` (sparse):
each row belonging to the new active list is divided by its degree. -/
def loopNormalize (data : Mat) (ds : ℕ → ℚ) (idxNew : List ℕ) : Mat :=
  fun v t => if v ∈ idxNew then data v t / ds v else data v t

/-- The smoothing loop `for k in range(n_iter + 1)` of `_morph_buffer`
(`n_iter = 99`).  `fuel` is the number of loop indices still available after
the current one, so the loop is entered with `fuel = 99` and `k = 0` and the
invariant `k + fuel = 99` holds throughout a run.  Returned are the final
loop index `k`, the active list at the start of the final iteration
(`idx_use_data`, whose `dataSum` is the `data_sum` used by the terminal
normalization), the new active list of the final iteration, and the data
buffer (untrimmed on a `done` break, trimmed and normalized when the loop
exhausts all 100 indices without `done`). -/
def loopDone (smooth : Option ℕ) (k n lenNew : ℕ) : Bool :=
  match smooth with
  | none => decide (k = 99) || decide (n ≤ lenNew)
  | some s => decide (k = s)

def morphLoop (e : Mat) (n : ℕ) (smooth : Option ℕ) :
    ℕ → ℕ → List ℕ → Mat → ℕ × List ℕ × List ℕ × Mat
  | fuel, k, idxUse, data =>
    let ds := dataSum e n idxUse
    let idxNew := activeList e n idxUse
    let data1 := morphMult data e n idxUse
    if loopDone smooth k n idxNew.length then (k, idxUse, idxNew, data1)
    else
      match fuel with
      | 0 => (k, idxUse, idxNew, loopNormalize data1 ds idxNew)
      | fuel' + 1 => morphLoop e n smooth fuel' (k + 1) idxNew (loopNormalize data1 ds idxNew)

/-- One full non-terminal smoothing iteration: multiply restricted to the
previous active columns, trim to the new active rows, normalize them by the
degree vector.  State is the pair (active list, buffer). -/
def smoothPass (e : Mat) (n : ℕ) : List ℕ × Mat → List ℕ × Mat :=
  fun st =>
    let ds := dataSum e n st.1
    let idxNew := activeList e n st.1
    (idxNew, loopNormalize (morphMult st.2 e n st.1) ds idxNew)

/-- Terminal normalization, dense path:
`data[idx_use, :] /= data_sum[idx_use][:, None]` - only rows of the final
active list are divided. -/
def finalNormalizeDense (data : Mat) (ds : ℕ → ℚ) (idxUse : List ℕ) : Mat :=
  fun v t => if v ∈ idxUse then data v t / ds v else data v t

/-- Terminal normalization, sparse path:
`data_sum[data_sum == 0] = 1; data.data /= data_sum.repeat(...)` - every row
is divided, zero-degree rows by 1. -/
def finalNormalizeSparse (data : Mat) (ds : ℕ → ℚ) : Mat :=
  fun v t => data v t / (if ds v = 0 then 1 else ds v)

/-- Final restriction to the target vertices:
`data_morphed = maps[nearest, :] * data`.  Row `i` of the result corresponds
to `nearest[i]`. -/
def mapsMult (maps : Mat) (nearest : List ℕ) (n : ℕ) (data : Mat) : Mat :=
  fun i t => ∑ w ∈ Finset.range n, maps (nearest.getD i 0) w * data w t

/-- Body of `_morph_buffer` after the `smooth` decrement: run the loop from
index 0 with 99 further indices available, apply the terminal normalization
of the requested sparsity path, and multiply by the selected morph-map rows.
When the loop exhausts all 100 indices without the `done` break (decremented
`smooth` of 100 or more), the source buffer is still trimmed to the rows of
the final active list; unless that list covers all `n_vertices` vertices the
terminal step raises a shape error (sparse path:
`data_sum.repeat(np.diff(data.indptr))` pairs the full-length `data_sum`
with the trimmed row count; dense path: the row indexing or the final
`maps[nearest, :] * data` product mismatches), modelled as the
`dimension mismatch` error.  Exhaustion is recognizable from the returned
state: the `done` condition is false at the returned loop index and active
list exactly when the loop fell off the index range.  The second component
of a successful run is the reported iteration count `k + 1`. -/
def morphBufferRun (useSparse : Bool) (data : Mat) (idxUse : List ℕ) (e : Mat)
    (smoothDec : Option ℕ) (nVertices : ℕ) (nearest : List ℕ) (maps : Mat) :
    Except String (Mat × ℕ) :=
  let out := morphLoop e nVertices smoothDec 99 0 idxUse data
  if loopDone smoothDec out.1 nVertices out.2.2.1.length = false ∧
      out.2.2.1.length ≠ nVertices then
    Except.error "dimension mismatch"
  else
    let ds := dataSum e nVertices out.2.1
    let dataF :=
      if useSparse then finalNormalizeSparse out.2.2.2 ds
      else finalNormalizeDense out.2.2.2 ds out.2.2.1
    Except.ok (mapsMult maps nearest nVertices dataF, out.1 + 1)

/-- The scalar (2-dimensional data) case of `_morph_buffer`: reject
`smooth <= 0`, decrement `smooth` once up front, then run the loop. -/
def morphBuffer (useSparse : Bool) (data : Mat) (idxUse : List ℕ) (e : Mat)
    (smooth : Option ℕ) (nVertices : ℕ) (nearest : List ℕ) (maps : Mat) :
    Except String (Mat × ℕ) :=
  match smooth with
  | some s =>
      if s = 0 then
        Except.error "The number of smoothing operations has to be at least 1."
      else
        morphBufferRun useSparse data idxUse e (some (s - 1)) nVertices nearest maps
  | none => morphBufferRun useSparse data idxUse e none nVertices nearest maps

/-- A sparse matrix together with its formal shape (`scipy` result objects
carry their shape; entries outside the shape are irrelevant). -/
structure SpMat where
  rows : ℕ
  cols : ℕ
  entry : Mat
deriving Inhabited

/-- The per-hemisphere diffusion kernel of `_compute_morph_matrix`:
`e.data[e.data == 2] = 1` followed by `e = e + sparse.eye(n, n)`. -/
def graphE (meshEdge : Mat) : Mat :=
  fun v w => (if meshEdge v w = 2 then 1 else meshEdge v w) + (if v = w then 1 else 0)

/-- One step of the hemisphere loop of `_compute_morph_matrix`: skip the
hemisphere when its source vertex list is empty (`ok none`), otherwise build
the kernel, the sparse identity seed `m = eye(len(idx_use))` (vertex-indexed:
row of vertex `v` is the unit vector at the position of `v` in `idx_use`),
and run `_morph_buffer`. -/
def morphHemiOne (meshEdges : ℕ → Mat) (nVerts : ℕ → ℕ) (maps : ℕ → Mat)
    (verticesFrom verticesToRev : List (List ℕ)) (smooth : Option ℕ)
    (hemiFrom hemiTo : ℕ) : Except String (Option SpMat) :=
  let idxUse := verticesFrom.getD hemiFrom []
  if idxUse = [] then Except.ok none
  else
    let e := graphE (meshEdges hemiFrom)
    let nearest := verticesToRev.getD hemiTo []
    let m : Mat := fun v j => if v ∈ idxUse ∧ idxUse.indexOf v = j then 1 else 0
    match morphBuffer true m idxUse e smooth (nVerts hemiFrom) nearest (maps hemiFrom) with
    | Except.error s => Except.error s
    | Except.ok mm => Except.ok (some ⟨nearest.length, idxUse.length, mm.1⟩)

/-- The hemisphere loop of `_compute_morph_matrix`: process the index pairs
in order, collecting the matrices of the non-skipped hemispheres, stopping at
the first error. -/
def morphHemis (meshEdges : ℕ → Mat) (nVerts : ℕ → ℕ) (maps : ℕ → Mat)
    (verticesFrom verticesToRev : List (List ℕ)) (smooth : Option ℕ) :
    List (ℕ × ℕ) → Except String (List SpMat)
  | [] => Except.ok []
  | (hemiFrom, hemiTo) :: rest =>
    match morphHemiOne meshEdges nVerts maps verticesFrom verticesToRev smooth
        hemiFrom hemiTo with
    | Except.error s => Except.error s
    | Except.ok none => morphHemis meshEdges nVerts maps verticesFrom verticesToRev smooth rest
    | Except.ok (some mm) =>
      match morphHemis meshEdges nVerts maps verticesFrom verticesToRev smooth rest with
      | Except.error s => Except.error s
      | Except.ok ms => Except.ok (mm :: ms)

/-- The block-diagonal composition `sparse_block_diag` for two blocks. -/
def blockDiag2 (a b : SpMat) : SpMat :=
  ⟨a.rows + b.rows, a.cols + b.cols,
    fun i j =>
      if i < a.rows then (if j < a.cols then a.entry i j else 0)
      else (if a.cols ≤ j then b.entry (i - a.rows) (j - a.cols) else 0)⟩

/-- The core of `_compute_morph_matrix`.  The subject spheres and morph maps
are external artifacts; they enter as the raw per-hemisphere `mesh_edges`
matrices, vertex counts (`e.shape[0]`) and morph maps.  With `xhemi` the
destination lists are reversed (in the source: in place) and the hemisphere
index pairs are crossed.  Returns the assembled matrix together with the
final state of the `vertices_to` argument. -/
def computeMorphMatrix (meshEdges : ℕ → Mat) (nVerts : ℕ → ℕ) (maps : ℕ → Mat)
    (verticesFrom verticesTo : List (List ℕ)) (smooth : Option ℕ) (xhemi : Bool) :
    Except String (SpMat × List (List ℕ)) :=
  let verticesToRev := if xhemi then verticesTo.reverse else verticesTo
  let hemiIndexes : List (ℕ × ℕ) := if xhemi then [(0, 1), (1, 0)] else [(0, 0), (1, 1)]
  match morphHemis meshEdges nVerts maps verticesFrom verticesToRev smooth hemiIndexes with
  | Except.error s => Except.error s
  | Except.ok [] => Except.error "Empty morph-matrix"
  | Except.ok [m] => Except.ok (m, verticesToRev)
  | Except.ok (m0 :: m1 :: _) => Except.ok (blockDiag2 m0 m1, verticesToRev)

/-- Opaque stand-in for a reconstructible external transform object
(`dipy` affine or diffeomorphic map); its whole observable state is its
attribute dictionary. -/
structure AffineMap where
  state : List (String × ℚ)
deriving Inhabited

/-- The morph operator, restricted to the fields meaningful for surface
morphs (the volume-only fields are carried as opaque optional values so the
persistence round trip covers the full attribute list). -/
structure SourceMorph where
  subject_from : Option String
  subject_to : String
  kind : String
  niter_affine : List ℕ
  niter_sdr : List ℕ
  spacing : Option ℕ
  smooth : Option ℕ
  xhemi : Bool
  morph_mat : SpMat
  vertices_to : List (List ℕ)
  morph_shape : Option (List ℚ)
  morph_zooms : Option (List ℚ)
  morph_affine : Option (List ℚ)
  pre_sdr_affine : Option AffineMap
  sdr_mapping : Option AffineMap
  src_data : List (List ℕ)
deriving Inhabited

/-- `_check_subject_from`: infer or validate the source subject name. -/
def checkSubjectFrom (subjectFrom subjectCheck : Option String) : Except String String :=
  match subjectFrom with
  | none =>
    match subjectCheck with
    | none => Except.error "subject_from could not be inferred, it must be specified"
    | some s => Except.ok s
  | some sf =>
    match subjectCheck with
    | some sc =>
      if sf ≠ sc then Except.error "subject_from does not match source space subject"
      else Except.ok sf
    | none => Except.ok sf

/-- The surface branch of `compute_source_morph` with `sparse=False`:
validate the source subject, resolve the destination vertices upstream
(passed here as `verticesTo`, the result of `grade_to_vertices`), assemble
the morph matrix, check the row-count assertion, and build the operator. -/
def computeSourceMorphSurface (subjectFrom srcSubject : Option String)
    (subjectTo : String) (meshEdges : ℕ → Mat) (nVerts : ℕ → ℕ) (maps : ℕ → Mat)
    (srcData verticesTo : List (List ℕ)) (smooth : Option ℕ) (xhemi : Bool) :
    Except String SourceMorph :=
  match checkSubjectFrom subjectFrom srcSubject with
  | Except.error s => Except.error s
  | Except.ok sf =>
    match computeMorphMatrix meshEdges nVerts maps srcData verticesTo smooth xhemi with
    | Except.error s => Except.error s
    | Except.ok (mat, verticesToFinal) =>
      let nVertsTotal := (verticesToFinal.map List.length).sum
      if mat.rows = nVertsTotal then
        Except.ok
          { subject_from := some sf, subject_to := subjectTo, kind := "surface",
            niter_affine := [100, 100, 10], niter_sdr := [5, 5, 3], spacing := none,
            smooth := smooth, xhemi := xhemi, morph_mat := mat,
            vertices_to := verticesToFinal, morph_shape := none, morph_zooms := none,
            morph_affine := none, pre_sdr_affine := none, sdr_mapping := none,
            src_data := srcData }
      else Except.error "AssertionError"

/-- Grade specification accepted by `grade_to_vertices`. -/
inductive Grade where
  | noGrade : Grade
  | int (g : ℕ) : Grade
  | explicitLists (l : List (List ℕ)) : Grade
deriving DecidableEq

/-- Errors raised by `grade_to_vertices`; the duplicate-vertex error records
the data interpolated into its message (grade, subject, vertex count). -/
inductive GtvError where
  | gradeListNotTwo : GtvError
  | duplicateVertices (grade : ℕ) (subject : String) (nVerts : ℕ) : GtvError
deriving DecidableEq

/-- `np.sort` on one hemisphere result. -/
def sortedHemi (l : List ℕ) : List ℕ := l.insertionSort (· ≤ ·)

/-- The duplicate test `(np.diff(verts) == 0).any()` on a sorted array:
some adjacent pair of entries is equal. -/
def hasAdjDup (l : List ℕ) : Bool := (l.zip l.tail).any fun p => p.1 == p.2

/-- `grade_to_vertices`.  The nearest-neighbor searches on the registered
spheres (`_compute_nearest`, external to this module) enter as the raw
per-hemisphere index lists `nearestL` and `nearestR`; `lhsN` and `rhsN` are
the hemisphere vertex counts used by the fill-the-surface path. -/
def gradeToVertices (subject : String) (grade : Grade)
    (nearestL nearestR : List ℕ) (lhsN rhsN : ℕ) :
    Except GtvError (List (List ℕ)) :=
  if subject = "fsaverage" ∧ grade = Grade.int 5 then
    Except.ok [List.range 10242, List.range 10242]
  else
    match grade with
    | Grade.explicitLists l =>
      if l.length ≠ 2 then Except.error GtvError.gradeListNotTwo else Except.ok l
    | Grade.int g =>
      let vertices := [sortedHemi nearestL, sortedHemi nearestR]
      match vertices.find? (fun v => hasAdjDup v) with
      | some v => Except.error (GtvError.duplicateVertices g subject v.length)
      | none => Except.ok vertices
    | Grade.noGrade => Except.ok [List.range lhsN, List.range rhsN]

/-- A surface source estimate: subject tag, per-hemisphere vertex lists, a
data buffer (rows concatenated over hemispheres), and time metadata. -/
structure SourceEstimateData where
  subject : Option String
  vertices : List (List ℕ)
  data : Mat
  tmin : ℚ
  tstep : ℚ
deriving Inhabited

/-- `data = morph_mat * data`: the scalar apply step. -/
def applyMorphScalar (m : SpMat) (data : Mat) : Mat :=
  fun i t => ∑ j ∈ Finset.range m.cols, m.entry i j * data j t

/-- C-order flattening `data.reshape(n_verts, 3 * n_samples)` of a
(vertex, component, time) buffer. -/
def reshapeFlat (data : ℕ → ℕ → ℕ → ℚ) (nSamples : ℕ) : Mat :=
  fun j c => data j (c / nSamples) (c % nSamples)

/-- The vector branch of `_apply_morph_data`: flatten the component axis
into the time axis, multiply by the morph matrix, reshape back to
(vertex, component, time). -/
def applyMorphVector (m : SpMat) (data : ℕ → ℕ → ℕ → ℚ) (nSamples : ℕ) :
    ℕ → ℕ → ℕ → ℚ :=
  fun i d t => applyMorphScalar m (reshapeFlat data nSamples) i (d * nSamples + t)

/-- The 3-dimensional-data branch of `_morph_buffer`: morph each of the three
components separately through the scalar `_morph_buffer` and stack. -/
def morphBufferVec (useSparse : Bool) (data : ℕ → ℕ → ℕ → ℚ) (idxUse : List ℕ)
    (e : Mat) (smooth : Option ℕ) (nVertices : ℕ) (nearest : List ℕ) (maps : Mat) :
    Except String (ℕ → ℕ → ℕ → ℚ) :=
  match morphBuffer useSparse (fun v t => data v 0 t) idxUse e smooth nVertices nearest maps,
      morphBuffer useSparse (fun v t => data v 1 t) idxUse e smooth nVertices nearest maps,
      morphBuffer useSparse (fun v t => data v 2 t) idxUse e smooth nVertices nearest maps with
  | Except.ok r0, Except.ok r1, Except.ok r2 =>
    Except.ok (fun i d t => if d = 0 then r0.1 i t else if d = 1 then r1.1 i t else r2.1 i t)
  | Except.error s, _, _ => Except.error s
  | _, Except.error s, _ => Except.error s
  | _, _, Except.error s => Except.error s

/-- `stc.rh_data`: the rows following the left-hemisphere block. -/
def rhData (stc : SourceEstimateData) : Mat :=
  fun i t => stc.data (i + (stc.vertices.getD 0 []).length) t

/-- The surface scalar branch of `_apply_morph_data`: validate the vertex
layout against the morph source layout, select the data block matching the
non-empty destination hemispheres, multiply, and rebuild the estimate with
the destination subject. -/
def applyMorphData (morph : SourceMorph) (stc : SourceEstimateData) :
    Except String SourceEstimateData :=
  if stc.subject ≠ none ∧ stc.subject ≠ morph.subject_from then
    Except.error "stc.subject != morph.subject_from"
  else if morph.src_data ≠ stc.vertices then
    Except.error "vertices do not match between morph and stc"
  else
    let verticesTo := morph.vertices_to
    let dataSel :=
      if (verticesTo.getD 0 []).length ≠ 0 ∧ (verticesTo.getD 1 []).length ≠ 0 then stc.data
      -- `stc.lh_data` is the row prefix `data[:len(vertices[0])]`; as a row
      -- function it coincides with the full buffer on every row the
      -- multiply reads, so the left-only branch is the buffer itself here.
      else if (verticesTo.getD 0 []).length ≠ 0 then stc.data
      else rhData stc
    Except.ok
      { subject := some morph.subject_to, vertices := verticesTo,
        data := applyMorphScalar morph.morph_mat dataSel,
        tmin := stc.tmin, tstep := stc.tstep }

/-- `SourceMorph.__call__` for a surface estimate: fill a missing estimate
subject from the operator, fill a missing operator `subject_from` from the
estimate (the only attribute write in `__call__`), check the match, and
apply.  The returned first component is the state of the operator after the
call. -/
def sourceMorphCall (morph : SourceMorph) (stcFrom : SourceEstimateData) :
    SourceMorph × Except String SourceEstimateData :=
  let stc := { stcFrom with
    subject := if stcFrom.subject = none then morph.subject_from else stcFrom.subject }
  let morphAfter :=
    if morph.subject_from = none then { morph with subject_from := stc.subject } else morph
  if stc.subject ≠ morphAfter.subject_from then
    (morphAfter, Except.error "stc_from.subject and morph.subject_from must match.")
  else (morphAfter, applyMorphData morphAfter stc)

/-- The record persisted by `SourceMorph.save`: one entry per attribute of
`_SOURCE_MORPH_ATTRIBUTES`, with the two external transform objects replaced
by their attribute dictionaries. -/
structure SavedMorphRecord where
  subject_from : Option String
  subject_to : String
  kind : String
  niter_affine : List ℕ
  niter_sdr : List ℕ
  spacing : Option ℕ
  smooth : Option ℕ
  xhemi : Bool
  morph_mat : SpMat
  vertices_to : List (List ℕ)
  morph_shape : Option (List ℚ)
  morph_zooms : Option (List ℚ)
  morph_affine : Option (List ℚ)
  pre_sdr_affine : Option (List (String × ℚ))
  sdr_mapping : Option (List (String × ℚ))
  src_data : List (List ℕ)

/-- Modelled from the spec: `write_hdf5` and `read_hdf5` (the bundled
`mne/externals/h5io` layer, not under `src/`) persist a structured key-value
record and restore it bit-identically, sparse matrices encoded as
indices, values and shape (spec section 6, Persisted operator).  The
persistence layer is therefore the identity on the record, and
`SourceMorph.save` reduces to building the record `out_dict` from the
attributes, replacing each non-`None` external transform object by its
`__dict__`. -/
def saveSourceMorph (m : SourceMorph) : SavedMorphRecord :=
  { subject_from := m.subject_from, subject_to := m.subject_to, kind := m.kind,
    niter_affine := m.niter_affine, niter_sdr := m.niter_sdr, spacing := m.spacing,
    smooth := m.smooth, xhemi := m.xhemi, morph_mat := m.morph_mat,
    vertices_to := m.vertices_to, morph_shape := m.morph_shape,
    morph_zooms := m.morph_zooms, morph_affine := m.morph_affine,
    pre_sdr_affine := m.pre_sdr_affine.map AffineMap.state,
    sdr_mapping := m.sdr_mapping.map AffineMap.state,
    src_data := m.src_data }

/-- Modelled from the spec (same persistence layer as `saveSourceMorph`):
`read_source_morph` reads the record back and rebuilds
`SourceMorph(**vals)`, reconstructing each non-`None` external transform
object from its saved attribute dictionary. -/
def readSourceMorph (r : SavedMorphRecord) : SourceMorph :=
  { subject_from := r.subject_from, subject_to := r.subject_to, kind := r.kind,
    niter_affine := r.niter_affine, niter_sdr := r.niter_sdr, spacing := r.spacing,
    smooth := r.smooth, xhemi := r.xhemi, morph_mat := r.morph_mat,
    vertices_to := r.vertices_to, morph_shape := r.morph_shape,
    morph_zooms := r.morph_zooms, morph_affine := r.morph_affine,
    pre_sdr_affine := r.pre_sdr_affine.map AffineMap.mk,
    sdr_mapping := r.sdr_mapping.map AffineMap.mk,
    src_data := r.src_data }

/-! Concrete instances used by witness theorems. -/

/-- A tiny concrete edge graph: one vertex with a self loop. -/
def eOne : Mat := fun v w => if v = 0 ∧ w = 0 then 1 else 0

/-- A concrete one-column data buffer. -/
def dOne : Mat := fun _ _ => 1

/-- A concrete edge graph with two self-looped vertices and no edge between
them (two disconnected components), on which an active set `[0]` can never
grow to cover both vertices. -/
def eTwo : Mat := fun v w => if v = w ∧ v < 2 then 1 else 0

/-- Concrete raw `mesh_edges` input: no off-diagonal edges, so `graphE`
turns it into the identity kernel. -/
def wMeshEdges : ℕ → Mat := fun _ => fun _ _ => 0

/-- Concrete per-hemisphere vertex counts. -/
def wNVerts : ℕ → ℕ := fun _ => 1

/-- Concrete per-hemisphere morph maps. -/
def wMaps : ℕ → Mat := fun _ => fun _ _ => 1

/-- Concrete source vertex lists: one left-hemisphere vertex, empty right. -/
def wSrcData : List (List ℕ) := [[0], []]

/-- Concrete destination vertex lists. -/
def wVerticesTo : List (List ℕ) := [[0], []]

/-- A concrete successful surface assembly (`xhemi = False`). -/
def wMorphResult : Except String SourceMorph :=
  computeSourceMorphSurface (some "a") (some "a") "fsaverage" wMeshEdges wNVerts
    wMaps wSrcData wVerticesTo (some 1) false

/-- The operator extracted from `wMorphResult`. -/
def wMorph : SourceMorph := wMorphResult.toOption.getD default

/-- A concrete successful assembly with `xhemi = True` (the right
destination list is used for the left source hemisphere). -/
def wMorphResultX : Except String SourceMorph :=
  computeSourceMorphSurface (some "a") (some "a") "fsaverage" wMeshEdges wNVerts
    wMaps wSrcData wVerticesTo (some 1) true

/-- The operator extracted from `wMorphResultX`. -/
def wMorphX : SourceMorph := wMorphResultX.toOption.getD default

/-- A concrete morph-matrix assembly result with `xhemi = True`. -/
def wCmmX : Except String (SpMat × List (List ℕ)) :=
  computeMorphMatrix wMeshEdges wNVerts wMaps wSrcData wVerticesTo (some 1) true

/-- The pair extracted from `wCmmX`. -/
def wCmmXOut : SpMat × List (List ℕ) := wCmmX.toOption.getD default

/-- A concrete morph-matrix assembly result with `xhemi = False`. -/
def wCmm : Except String (SpMat × List (List ℕ)) :=
  computeMorphMatrix wMeshEdges wNVerts wMaps wSrcData wVerticesTo (some 1) false

/-- The pair extracted from `wCmm`. -/
def wCmmOut : SpMat × List (List ℕ) := wCmm.toOption.getD default

/-- A concrete source estimate matching `wMorph`. -/
def wStc : SourceEstimateData :=
  { subject := some "a", vertices := wSrcData, data := dOne, tmin := 0, tstep := 1 }

/-- A concrete three-component data buffer. -/
def dVec : ℕ → ℕ → ℕ → ℚ := fun _ _ _ => 1

/-- A concrete vector morph-buffer run. -/
def wVecResult : Except String (ℕ → ℕ → ℕ → ℚ) :=
  morphBufferVec false dVec [0] eOne (some 1) 1 [0] eOne

/-- The buffer extracted from `wVecResult`. -/
def wVec : ℕ → ℕ → ℕ → ℚ := wVecResult.toOption.getD (fun _ _ _ => 0)

end MneMorph

namespace MneMorph

/-! ### Step lemmas for the smoothing loop -/

lemma morphLoop_break (e : Mat) (n : ℕ) (smooth : Option ℕ) (fuel k : ℕ)
    (idx : List ℕ) (d : Mat)
    (h : loopDone smooth k n (activeList e n idx).length = true) :
    morphLoop e n smooth fuel k idx d = (k, idx, activeList e n idx, morphMult d e n idx) := by
  rw [morphLoop.eq_def]
  simp only [h, if_true]

lemma morphLoop_cont (e : Mat) (n : ℕ) (smooth : Option ℕ) (fuel k : ℕ)
    (idx : List ℕ) (d : Mat)
    (h : loopDone smooth k n (activeList e n idx).length = false) :
    morphLoop e n smooth (fuel + 1) k idx d =
      morphLoop e n smooth fuel (k + 1) (activeList e n idx)
        (loopNormalize (morphMult d e n idx) (dataSum e n idx) (activeList e n idx)) := by
  rw [morphLoop.eq_def]
  simp only [h, Bool.false_eq_true, if_false]

lemma morphLoop_exhaust (e : Mat) (n : ℕ) (smooth : Option ℕ) (k : ℕ)
    (idx : List ℕ) (d : Mat)
    (h : loopDone smooth k n (activeList e n idx).length = false) :
    morphLoop e n smooth 0 k idx d =
      (k, idx, activeList e n idx,
        loopNormalize (morphMult d e n idx) (dataSum e n idx) (activeList e n idx)) := by
  rw [morphLoop.eq_def]
  simp only [h, Bool.false_eq_true, if_false]

lemma smoothPass_eq (e : Mat) (n : ℕ) (idx : List ℕ) (d : Mat) :
    smoothPass e n (idx, d) =
      (activeList e n idx,
        loopNormalize (morphMult d e n idx) (dataSum e n idx) (activeList e n idx)) := rfl

/-- With `smooth = some s`, starting `m` iterations short of `s` and with
enough fuel, the loop performs `m` full normalized passes followed by a
terminal untrimmed multiply, and stops at loop index `s`. -/
lemma morphLoop_smooth_run (e : Mat) (n : ℕ) (s : ℕ) :
    ∀ (m fuel k : ℕ) (idx : List ℕ) (d : Mat), k + m = s → m ≤ fuel →
    morphLoop e n (some s) fuel k idx d =
      (s, ((smoothPass e n)^[m] (idx, d)).1,
        activeList e n ((smoothPass e n)^[m] (idx, d)).1,
        morphMult ((smoothPass e n)^[m] (idx, d)).2 e n ((smoothPass e n)^[m] (idx, d)).1) := by
  intro m
  induction m with
  | zero =>
    intro fuel k idx d hk _
    have hk0 : k = s := by omega
    subst hk0
    rw [morphLoop_break]
    · simp
    · simp [loopDone]
  | succ m ih =>
    intro fuel k idx d hk hf
    have hks : k ≠ s := by omega
    obtain ⟨f, rfl⟩ : ∃ f, fuel = f + 1 := ⟨fuel - 1, by omega⟩
    rw [morphLoop_cont _ _ _ _ _ _ _ (by simp [loopDone, hks])]
    rw [ih f (k + 1) _ _ (by omega) (by omega)]
    rw [← smoothPass_eq, ← Function.iterate_succ_apply]

/-- When `smooth` (after the decrement) is at least `k + fuel`, the `done`
flag is never raised and the loop runs until its index range is exhausted.
On an active list that is a fixed point of the active-set update the final
state keeps that list. -/
lemma morphLoop_smooth_exhaust (e : Mat) (n : ℕ) (s : ℕ) :
    ∀ (fuel k : ℕ) (idx : List ℕ) (d : Mat), k + fuel ≤ s →
    activeList e n idx = idx →
    (morphLoop e n (some s) fuel k idx d).1 = k + fuel ∧
      (morphLoop e n (some s) fuel k idx d).2.2.1 = idx := by
  intro fuel
  induction fuel with
  | zero =>
    intro k idx d hle hfix
    by_cases hks : k = s
    · subst hks
      rw [morphLoop_break _ _ _ _ _ _ _ (by simp [loopDone])]
      simpa using hfix
    · rw [morphLoop_exhaust _ _ _ _ _ _ (by simp [loopDone, hks])]
      simpa using hfix
  | succ f ih =>
    intro k idx d hle hfix
    have hks : k ≠ s := by omega
    rw [morphLoop_cont _ _ _ _ _ _ _ (by simp [loopDone, hks])]
    rw [hfix]
    obtain ⟨h1, h2⟩ := ih (k + 1) idx
      (loopNormalize (morphMult d e n idx) (dataSum e n idx) idx)
      (by omega) hfix
    exact ⟨by omega, h2⟩

/-- Claim C1 (amended): for `1 <= N <= 100` passed as `smooth`, the smoother
performs exactly `N` multiply passes: `N - 1` full `smoothPass` iterations
(multiply, trim to the new active rows, normalize them by `data_sum`)
followed by one terminal untrimmed multiply that receives only the final
normalization, the loop stopping at index `N - 1` and hence reporting `N`
smooth iterations. -/
theorem claim_C1_smooth_iteration_structure (useSparse : Bool) (d : Mat)
    (idx : List ℕ) (e : Mat) (n : ℕ) (nearest : List ℕ) (maps : Mat) (N : ℕ)
    (h1 : 1 ≤ N) (h2 : N ≤ 100) :
    morphBuffer useSparse d idx e (some N) n nearest maps =
      Except.ok
        (mapsMult maps nearest n
          (if useSparse then
            finalNormalizeSparse
              (morphMult ((smoothPass e n)^[N - 1] (idx, d)).2 e n
                ((smoothPass e n)^[N - 1] (idx, d)).1)
              (dataSum e n ((smoothPass e n)^[N - 1] (idx, d)).1)
          else
            finalNormalizeDense
              (morphMult ((smoothPass e n)^[N - 1] (idx, d)).2 e n
                ((smoothPass e n)^[N - 1] (idx, d)).1)
              (dataSum e n ((smoothPass e n)^[N - 1] (idx, d)).1)
              (activeList e n ((smoothPass e n)^[N - 1] (idx, d)).1)),
          N) := by
  have hN0 : ¬ N = 0 := by omega
  unfold morphBuffer
  simp only [hN0, if_false]
  unfold morphBufferRun
  rw [morphLoop_smooth_run e n (N - 1) (N - 1) 99 0 idx d (by omega) (by omega)]
  rw [if_neg (by simp [loopDone])]
  simp only []
  congr 2
  omega

/-- Claim C1 witness: concrete run with `N = 1` on a one-vertex graph. -/
theorem claim_C1_smooth_iteration_structure_witness :
    morphBuffer false dOne [0] eOne (some 1) 1 [0] eOne =
      Except.ok
        (mapsMult eOne [0] 1
          (finalNormalizeDense
            (morphMult ((smoothPass eOne 1)^[0] ([0], dOne)).2 eOne 1
              ((smoothPass eOne 1)^[0] ([0], dOne)).1)
            (dataSum eOne 1 ((smoothPass eOne 1)^[0] ([0], dOne)).1)
            (activeList eOne 1 ((smoothPass eOne 1)^[0] ([0], dOne)).1)),
          1) := by
  have h := claim_C1_smooth_iteration_structure false dOne [0] eOne 1 [0] eOne 1
    (by decide) (by decide)
  simpa using h

/-- Claim C1 counterexample: with `smooth = 101` the loop does NOT terminate
at index `N - 1 = 100` with `101` passes; it exhausts the hard 100-index
range and reports `100` iterations (final loop index 99). -/
theorem claim_C1_counterexample :
    (morphBuffer false dOne [0] eOne (some 101) 1 [0] eOne).map Prod.snd =
        Except.ok 100 ∧
      (morphBuffer false dOne [0] eOne (some 101) 1 [0] eOne).map Prod.snd ≠
        Except.ok 101 := by
  have hfix : activeList eOne 1 [0] = [0] := by
    have h0 : dataSum eOne 1 [0] 0 = 1 := by simp [dataSum, eOne]
    have hr1 : List.range 1 = [0] := rfl
    simp [activeList, hr1, h0]
  obtain ⟨hk, hidx⟩ :=
    morphLoop_smooth_exhaust eOne 1 100 99 0 [0] dOne (by omega) hfix
  have hk99 : (morphLoop eOne 1 (some 100) 99 0 [0] dOne).1 = 99 := by
    simpa using hk
  constructor
  · simp [morphBuffer, morphBufferRun, hk99, hidx, loopDone, Except.map]
  · simp [morphBuffer, morphBufferRun, hk99, hidx, loopDone, Except.map]

/-! ### Terminal normalization (claim C2) -/

lemma activeList_mem_lt (e : Mat) (n : ℕ) (idx : List ℕ) :
    ∀ v ∈ activeList e n idx, v < n := by
  intro v hv
  simp only [activeList, List.mem_filter, List.mem_range] at hv
  exact hv.1

lemma activeList_nodup (e : Mat) (n : ℕ) (idx : List ℕ) :
    (activeList e n idx).Nodup :=
  (List.nodup_range n).filter _

lemma mem_activeList_iff (e : Mat) (n : ℕ) (idx : List ℕ) (v : ℕ) :
    v ∈ activeList e n idx ↔ v < n ∧ dataSum e n idx v ≠ 0 := by
  simp [activeList, List.mem_filter]

/-- Whenever the loop is entered in a configuration a real `_morph_buffer`
run can produce (either `smooth = None` with the index budget matching the
99 ceiling, or a decremented `smooth` reachable within the budget), it exits
through the `done` break, so the returned buffer is the untrimmed terminal
multiply of the returned `idx_use_data`, the returned new active list is its
`nonzero(data_sum)`, and the active list stays within bounds and duplicate
free. -/
lemma morphLoop_break_shape (e : Mat) (n : ℕ) (smooth : Option ℕ) :
    ∀ (fuel k : ℕ) (idx : List ℕ) (d : Mat),
    (smooth = none ∧ k + fuel = 99 ∨ ∃ s, smooth = some s ∧ k ≤ s ∧ s ≤ k + fuel) →
    (∀ v ∈ idx, v < n) → idx.Nodup →
    ∃ dstar,
      (morphLoop e n smooth fuel k idx d).2.2.2 =
          morphMult dstar e n (morphLoop e n smooth fuel k idx d).2.1 ∧
        (morphLoop e n smooth fuel k idx d).2.2.1 =
          activeList e n (morphLoop e n smooth fuel k idx d).2.1 ∧
        (∀ v ∈ (morphLoop e n smooth fuel k idx d).2.1, v < n) ∧
        (morphLoop e n smooth fuel k idx d).2.1.Nodup := by
  intro fuel
  induction fuel with
  | zero =>
    intro k idx d hrun hlt hnd
    have hbreak : loopDone smooth k n (activeList e n idx).length = true := by
      rcases hrun with ⟨hs, hk⟩ | ⟨s, hs, hks1, hks2⟩
      · subst hs
        simp [loopDone]
        omega
      · subst hs
        simp [loopDone]
        omega
    rw [morphLoop_break _ _ _ _ _ _ _ hbreak]
    exact ⟨d, rfl, rfl, hlt, hnd⟩
  | succ f ih =>
    intro k idx d hrun hlt hnd
    by_cases hdone : loopDone smooth k n (activeList e n idx).length = true
    · rw [morphLoop_break _ _ _ _ _ _ _ hdone]
      exact ⟨d, rfl, rfl, hlt, hnd⟩
    · rw [morphLoop_cont _ _ _ _ _ _ _ (by simpa using hdone)]
      apply ih
      · rcases hrun with ⟨hs, hk⟩ | ⟨s, hs, hks1, hks2⟩
        · exact Or.inl ⟨hs, by omega⟩
        · refine Or.inr ⟨s, hs, ?_, by omega⟩
          subst hs
          simp [loopDone] at hdone
          omega
      · exact activeList_mem_lt e n idx
      · exact activeList_nodup e n idx

lemma mem_of_nodup_length_ge (l : List ℕ) (n : ℕ) (h1 : ∀ v ∈ l, v < n)
    (h2 : l.Nodup) (h3 : n ≤ l.length) : ∀ w, w < n → w ∈ l := by
  intro w hw
  have hsub : l.toFinset ⊆ Finset.range n := by
    intro x hx
    rw [List.mem_toFinset] at hx
    simpa using h1 x hx
  have hcard : (Finset.range n).card ≤ l.toFinset.card := by
    rw [List.toFinset_card_of_nodup h2]
    simpa using h3
  have heq := Finset.eq_of_subset_of_card_le hsub hcard
  have hwmem : w ∈ l.toFinset := by
    rw [heq]
    simpa using hw
  simpa [List.mem_toFinset] using hwmem

/-- A row whose active degree is zero receives only zero contributions in
the multiply pass (the kernel entries are nonnegative). -/
lemma morphMult_zero_of_dataSum_zero (e : Mat) (n : ℕ) (idxData : List ℕ)
    (dstar : Mat) (he : ∀ v w, 0 ≤ e v w) (h1 : ∀ v ∈ idxData, v < n)
    (h2 : idxData.Nodup) (v : ℕ) (hds : dataSum e n idxData v = 0) (t : ℕ) :
    morphMult dstar e n idxData v t = 0 := by
  have hterm : ∀ w ∈ Finset.range n, e v w * (if w ∈ idxData then (1 : ℚ) else 0) = 0 := by
    have hnn : ∀ w ∈ Finset.range n, 0 ≤ e v w * (if w ∈ idxData then (1 : ℚ) else 0) := by
      intro w _
      have := he v w
      split <;> simp [this]
    exact (Finset.sum_eq_zero_iff_of_nonneg hnn).mp hds
  have hzero : ∀ w, w < n → w ∈ idxData → e v w = 0 := by
    intro w hwn hwi
    have := hterm w (Finset.mem_range.mpr hwn)
    simpa [hwi] using this
  unfold morphMult
  split
  · apply Finset.sum_eq_zero
    intro w hw
    by_cases hwi : w ∈ idxData
    · simp [hzero w (Finset.mem_range.mp hw) hwi]
    · simp [hwi]
  · next hlen =>
    apply Finset.sum_eq_zero
    intro w hw
    have hwn : w < n := Finset.mem_range.mp hw
    have hwi : w ∈ idxData := mem_of_nodup_length_ge idxData n h1 h2 (by omega) w hwn
    simp [hzero w hwn hwi]

/-- Claim C2: on the terminal iteration, for both the sparse and the dense
normalization path, every row of the full-length buffer equals the raw
terminal multiply divided by its degree entry with zero degrees treated as
degree 1; in particular rows of vertices never reached by the smoothing are
exactly zero instead of dividing by zero. -/
theorem claim_C2_terminal_normalization (e : Mat) (n : ℕ)
    (he : ∀ v w, 0 ≤ e v w) (smooth : Option ℕ) (fuel k : ℕ) (idx : List ℕ)
    (d : Mat)
    (hrun : smooth = none ∧ k + fuel = 99 ∨
      ∃ s, smooth = some s ∧ k ≤ s ∧ s ≤ k + fuel)
    (hlt : ∀ v ∈ idx, v < n) (hnd : idx.Nodup) :
    ∀ v, v < n → ∀ t,
      finalNormalizeDense (morphLoop e n smooth fuel k idx d).2.2.2
          (dataSum e n (morphLoop e n smooth fuel k idx d).2.1)
          (morphLoop e n smooth fuel k idx d).2.2.1 v t =
        (morphLoop e n smooth fuel k idx d).2.2.2 v t /
          (if dataSum e n (morphLoop e n smooth fuel k idx d).2.1 v = 0 then 1
            else dataSum e n (morphLoop e n smooth fuel k idx d).2.1 v) ∧
      finalNormalizeSparse (morphLoop e n smooth fuel k idx d).2.2.2
          (dataSum e n (morphLoop e n smooth fuel k idx d).2.1) v t =
        (morphLoop e n smooth fuel k idx d).2.2.2 v t /
          (if dataSum e n (morphLoop e n smooth fuel k idx d).2.1 v = 0 then 1
            else dataSum e n (morphLoop e n smooth fuel k idx d).2.1 v) ∧
      (dataSum e n (morphLoop e n smooth fuel k idx d).2.1 v = 0 →
        finalNormalizeDense (morphLoop e n smooth fuel k idx d).2.2.2
            (dataSum e n (morphLoop e n smooth fuel k idx d).2.1)
            (morphLoop e n smooth fuel k idx d).2.2.1 v t = 0 ∧
          finalNormalizeSparse (morphLoop e n smooth fuel k idx d).2.2.2
            (dataSum e n (morphLoop e n smooth fuel k idx d).2.1) v t = 0) := by
  intro v hv t
  obtain ⟨dstar, hdata, hnew, hltF, hndF⟩ :=
    morphLoop_break_shape e n smooth fuel k idx d hrun hlt hnd
  set out := morphLoop e n smooth fuel k idx d with hout
  by_cases hds : dataSum e n out.2.1 v = 0
  · have hzero : out.2.2.2 v t = 0 := by
      rw [hdata]
      exact morphMult_zero_of_dataSum_zero e n out.2.1 dstar he hltF hndF v hds t
    have hnotmem : v ∉ out.2.2.1 := by
      rw [hnew, mem_activeList_iff]
      intro hc
      exact hc.2 hds
    refine ⟨?_, ?_, fun _ => ⟨?_, ?_⟩⟩
    · simp [finalNormalizeDense, hnotmem, hds, hzero]
    · simp [finalNormalizeSparse, hds, hzero]
    · simp [finalNormalizeDense, hnotmem, hzero]
    · simp [finalNormalizeSparse, hds, hzero]
  · have hmem : v ∈ out.2.2.1 := by
      rw [hnew, mem_activeList_iff]
      exact ⟨hv, hds⟩
    refine ⟨?_, ?_, fun hc => absurd hc hds⟩
    · simp [finalNormalizeDense, hmem, hds]
    · simp [finalNormalizeSparse, hds]

/-- Claim C2 witness: concrete run on the one-vertex graph with
`smooth = None`. -/
theorem claim_C2_terminal_normalization_witness :
    finalNormalizeDense (morphLoop eOne 1 none 99 0 [0] dOne).2.2.2
        (dataSum eOne 1 (morphLoop eOne 1 none 99 0 [0] dOne).2.1)
        (morphLoop eOne 1 none 99 0 [0] dOne).2.2.1 0 0 =
      (morphLoop eOne 1 none 99 0 [0] dOne).2.2.2 0 0 /
        (if dataSum eOne 1 (morphLoop eOne 1 none 99 0 [0] dOne).2.1 0 = 0 then 1
          else dataSum eOne 1 (morphLoop eOne 1 none 99 0 [0] dOne).2.1 0) ∧
      finalNormalizeSparse (morphLoop eOne 1 none 99 0 [0] dOne).2.2.2
          (dataSum eOne 1 (morphLoop eOne 1 none 99 0 [0] dOne).2.1) 0 0 =
        (morphLoop eOne 1 none 99 0 [0] dOne).2.2.2 0 0 /
          (if dataSum eOne 1 (morphLoop eOne 1 none 99 0 [0] dOne).2.1 0 = 0 then 1
            else dataSum eOne 1 (morphLoop eOne 1 none 99 0 [0] dOne).2.1 0) ∧
      (dataSum eOne 1 (morphLoop eOne 1 none 99 0 [0] dOne).2.1 0 = 0 →
        finalNormalizeDense (morphLoop eOne 1 none 99 0 [0] dOne).2.2.2
            (dataSum eOne 1 (morphLoop eOne 1 none 99 0 [0] dOne).2.1)
            (morphLoop eOne 1 none 99 0 [0] dOne).2.2.1 0 0 = 0 ∧
          finalNormalizeSparse (morphLoop eOne 1 none 99 0 [0] dOne).2.2.2
            (dataSum eOne 1 (morphLoop eOne 1 none 99 0 [0] dOne).2.1) 0 0 = 0) :=
  claim_C2_terminal_normalization eOne 1
    (by
      intro v w
      by_cases h : v = 0 ∧ w = 0 <;> simp [eOne, h])
    none 99 0 [0] dOne (Or.inl ⟨rfl, by omega⟩)
    (by
      intro v hv
      simp at hv
      omega)
    (by decide) 0 (by decide) 0

/-! ### Termination and iteration bound (claim C6) -/

lemma morphLoop_k_le (e : Mat) (n : ℕ) (smooth : Option ℕ) :
    ∀ (fuel k : ℕ) (idx : List ℕ) (d : Mat),
    (morphLoop e n smooth fuel k idx d).1 ≤ k + fuel := by
  intro fuel
  induction fuel with
  | zero =>
    intro k idx d
    by_cases h : loopDone smooth k n (activeList e n idx).length = true
    · rw [morphLoop_break _ _ _ _ _ _ _ h]
      simp
    · rw [morphLoop_exhaust _ _ _ _ _ _ (by simpa using h)]
      simp
  | succ f ih =>
    intro k idx d
    by_cases h : loopDone smooth k n (activeList e n idx).length = true
    · rw [morphLoop_break _ _ _ _ _ _ _ h]
      omega
    · rw [morphLoop_cont _ _ _ _ _ _ _ (by simpa using h)]
      have := ih (k + 1) (activeList e n idx)
        (loopNormalize (morphMult d e n idx) (dataSum e n idx) (activeList e n idx))
      omega

/-- With `smooth = None` the loop stops at the first iteration whose new
active set reaches the full vertex count, or at the 99 ceiling. -/
lemma morphLoop_none_char (e : Mat) (n : ℕ) :
    ∀ (fuel k : ℕ) (idx : List ℕ) (d : Mat), k + fuel = 99 →
    k ≤ (morphLoop e n none fuel k idx d).1 ∧
      (morphLoop e n none fuel k idx d).1 ≤ 99 ∧
      (∀ m, k + m < (morphLoop e n none fuel k idx d).1 →
        ¬ (n ≤ (activeList e n (((smoothPass e n)^[m] (idx, d)).1)).length)) ∧
      ((morphLoop e n none fuel k idx d).1 = 99 ∨
        n ≤ (activeList e n
          (((smoothPass e n)^[(morphLoop e n none fuel k idx d).1 - k] (idx, d)).1)).length) := by
  intro fuel
  induction fuel with
  | zero =>
    intro k idx d hk
    have hk99 : k = 99 := by omega
    subst hk99
    rw [morphLoop_break _ _ _ _ _ _ _ (by simp [loopDone])]
    refine ⟨le_refl _, le_refl _, ?_, Or.inl rfl⟩
    intro m hm
    omega
  | succ f ih =>
    intro k idx d hk
    have hk99 : k ≠ 99 := by omega
    by_cases hcov : n ≤ (activeList e n idx).length
    · rw [morphLoop_break _ _ _ _ _ _ _ (by simp [loopDone, hcov])]
      refine ⟨le_refl _, by omega, ?_, Or.inr ?_⟩
      · intro m hm
        omega
      · simpa using hcov
    · rw [morphLoop_cont _ _ _ _ _ _ _ (by simp [loopDone, hk99, hcov])]
      obtain ⟨ih1, ih2, ih3, ih4⟩ := ih (k + 1) (activeList e n idx)
        (loopNormalize (morphMult d e n idx) (dataSum e n idx) (activeList e n idx))
        (by omega)
      have hpair : smoothPass e n (idx, d) =
          (activeList e n idx,
            loopNormalize (morphMult d e n idx) (dataSum e n idx) (activeList e n idx)) :=
        smoothPass_eq e n idx d
      rw [← hpair] at ih3 ih4
      refine ⟨by omega, ih2, ?_, ?_⟩
      · intro m hm
        match m with
        | 0 => simpa using hcov
        | m' + 1 =>
          have h3 := ih3 m' (by omega)
          rw [← Function.iterate_succ_apply] at h3
          exact h3
      · rcases ih4 with h99 | hreach
        · exact Or.inl h99
        · refine Or.inr ?_
          rw [← Function.iterate_succ_apply] at hreach
          simp only [Nat.succ_eq_add_one] at hreach
          have harith :
              (morphLoop e n none f (k + 1) (activeList e n idx)
                (loopNormalize (morphMult d e n idx) (dataSum e n idx)
                  (activeList e n idx))).1 - (k + 1) + 1 =
              (morphLoop e n none f (k + 1) (activeList e n idx)
                (loopNormalize (morphMult d e n idx) (dataSum e n idx)
                  (activeList e n idx))).1 - k := by
            omega
          rw [harith] at hreach
          exact hreach

/-- At every exit reachable from a real run configuration (either
`smooth = None` with the index budget matching the ceiling, or a decremented
`smooth` reachable within the budget) the loop has broken through the `done`
test: the `done` condition evaluated at the returned loop index and returned
new active list is true, so the exhaust-path shape error cannot fire. -/
lemma morphLoop_exits_done (e : Mat) (n : ℕ) (smooth : Option ℕ) :
    ∀ (fuel k : ℕ) (idx : List ℕ) (d : Mat),
    (smooth = none ∧ k + fuel = 99 ∨ ∃ s, smooth = some s ∧ k ≤ s ∧ s ≤ k + fuel) →
    loopDone smooth (morphLoop e n smooth fuel k idx d).1 n
      (morphLoop e n smooth fuel k idx d).2.2.1.length = true := by
  intro fuel
  induction fuel with
  | zero =>
    intro k idx d hrun
    have hbreak : loopDone smooth k n (activeList e n idx).length = true := by
      rcases hrun with ⟨hs, hk⟩ | ⟨s, hs, hks1, hks2⟩
      · subst hs
        simp [loopDone]
        omega
      · subst hs
        simp [loopDone]
        omega
    rw [morphLoop_break _ _ _ _ _ _ _ hbreak]
    exact hbreak
  | succ f ih =>
    intro k idx d hrun
    by_cases hdone : loopDone smooth k n (activeList e n idx).length = true
    · rw [morphLoop_break _ _ _ _ _ _ _ hdone]
      exact hdone
    · rw [morphLoop_cont _ _ _ _ _ _ _ (by simpa using hdone)]
      apply ih
      rcases hrun with ⟨hs, hk⟩ | ⟨s, hs, hks1, hks2⟩
      · exact Or.inl ⟨hs, by omega⟩
      · refine Or.inr ⟨s, hs, ?_, by omega⟩
        subst hs
        simp [loopDone] at hdone
        omega

/-- Claim C6 (amended): for `smooth = None` or `1 <= smooth <= 100` and a
nonempty active subset, `_morph_buffer` returns without raising, reports at
most 100 smoothing iterations, and with `smooth = None` stops at the first
iteration whose new active set covers all `n_vertices` vertices, or else at
loop index 99.  For `smooth >= 101` with partial final coverage the
terminal step raises a shape error instead (see the counterexample). -/
theorem claim_C6_termination_bound (useSparse : Bool) (d : Mat) (idx : List ℕ)
    (e : Mat) (smooth : Option ℕ) (n : ℕ) (nearest : List ℕ) (maps : Mat)
    (hvalid : smooth = none ∨ ∃ N, smooth = some N ∧ 1 ≤ N ∧ N ≤ 100)
    (hne : idx ≠ []) :
    (morphBuffer useSparse d idx e smooth n nearest maps).isOk = true ∧
      (∀ r, morphBuffer useSparse d idx e smooth n nearest maps = Except.ok r →
        r.2 ≤ 100) ∧
      (smooth = none →
        (∃ r, morphBuffer useSparse d idx e smooth n nearest maps =
            Except.ok r ∧ r.2 = (morphLoop e n none 99 0 idx d).1 + 1) ∧
        (morphLoop e n none 99 0 idx d).1 ≤ 99 ∧
        (∀ m, m < (morphLoop e n none 99 0 idx d).1 →
          ¬ (n ≤ (activeList e n (((smoothPass e n)^[m] (idx, d)).1)).length)) ∧
        ((morphLoop e n none 99 0 idx d).1 = 99 ∨
          n ≤ (activeList e n
            (((smoothPass e n)^[(morphLoop e n none 99 0 idx d).1] (idx, d)).1)).length)) := by
  have hguard : ∀ smoothDec : Option ℕ,
      (smoothDec = none ∨ ∃ s, smoothDec = some s ∧ s ≤ 99) →
      ¬ (loopDone smoothDec (morphLoop e n smoothDec 99 0 idx d).1 n
          (morphLoop e n smoothDec 99 0 idx d).2.2.1.length = false ∧
        (morphLoop e n smoothDec 99 0 idx d).2.2.1.length ≠ n) := by
    intro smoothDec hd
    have hdone := morphLoop_exits_done e n smoothDec 99 0 idx d
      (by
        rcases hd with hd | ⟨s, hd, hs⟩
        · exact Or.inl ⟨hd, by omega⟩
        · exact Or.inr ⟨s, hd, by omega, by omega⟩)
    simp [hdone]
  refine ⟨?_, ?_, ?_⟩
  · rcases hvalid with hs | ⟨N, hs, hN1, hN2⟩
    · subst hs
      unfold morphBuffer morphBufferRun
      rw [if_neg (hguard none (Or.inl rfl))]
      rfl
    · subst hs
      have hN0 : ¬ N = 0 := by omega
      unfold morphBuffer
      simp only [hN0, if_false]
      unfold morphBufferRun
      rw [if_neg (hguard (some (N - 1)) (Or.inr ⟨N - 1, rfl, by omega⟩))]
      rfl
  · intro r hr
    rcases hvalid with hs | ⟨N, hs, hN1, hN2⟩
    · subst hs
      unfold morphBuffer morphBufferRun at hr
      rw [if_neg (hguard none (Or.inl rfl))] at hr
      have hr2 : (mapsMult maps nearest n _, (morphLoop e n none 99 0 idx d).1 + 1) = r :=
        (Except.ok.injEq _ _).mp hr
      have := morphLoop_k_le e n none 99 0 idx d
      rw [← hr2]
      simpa using this
    · subst hs
      have hN0 : ¬ N = 0 := by omega
      unfold morphBuffer at hr
      simp only [hN0, if_false] at hr
      unfold morphBufferRun at hr
      rw [if_neg (hguard (some (N - 1)) (Or.inr ⟨N - 1, rfl, by omega⟩))] at hr
      have hr2 : (mapsMult maps nearest n _,
          (morphLoop e n (some (N - 1)) 99 0 idx d).1 + 1) = r :=
        (Except.ok.injEq _ _).mp hr
      have := morphLoop_k_le e n (some (N - 1)) 99 0 idx d
      rw [← hr2]
      simpa using this
  · intro hs
    subst hs
    obtain ⟨h1, h2, h3, h4⟩ := morphLoop_none_char e n 99 0 idx d (by omega)
    refine ⟨?_, h2, ?_, ?_⟩
    · unfold morphBuffer morphBufferRun
      rw [if_neg (hguard none (Or.inl rfl))]
      exact ⟨_, rfl, rfl⟩
    · intro m hm
      exact h3 m (by omega)
    · simpa using h4

/-- Claim C6 witness: the one-vertex graph with full initial coverage and
`smooth = None` stops at iteration index 0. -/
theorem claim_C6_termination_bound_witness :
    (morphBuffer false dOne [0] eOne none 1 [0] eOne).isOk = true ∧
      (∀ r, morphBuffer false dOne [0] eOne none 1 [0] eOne = Except.ok r →
        r.2 ≤ 100) ∧
      ((none : Option ℕ) = none →
        (∃ r, morphBuffer false dOne [0] eOne none 1 [0] eOne =
            Except.ok r ∧ r.2 = (morphLoop eOne 1 none 99 0 [0] dOne).1 + 1) ∧
        (morphLoop eOne 1 none 99 0 [0] dOne).1 ≤ 99 ∧
        (∀ m, m < (morphLoop eOne 1 none 99 0 [0] dOne).1 →
          ¬ (1 ≤ (activeList eOne 1 (((smoothPass eOne 1)^[m] ([0], dOne)).1)).length)) ∧
        ((morphLoop eOne 1 none 99 0 [0] dOne).1 = 99 ∨
          1 ≤ (activeList eOne 1
            (((smoothPass eOne 1)^[(morphLoop eOne 1 none 99 0 [0] dOne).1]
              ([0], dOne)).1)).length)) :=
  claim_C6_termination_bound false dOne [0] eOne none 1 [0] eOne (Or.inl rfl)
    (by decide)

/-- Claim C6 counterexample: the original claim promises no raise for every
`smooth >= 1`, but with two disconnected vertices, initial active subset
`[0]` and `smooth = 150` the loop exhausts its 100-index range with partial
coverage, leaving the source buffer trimmed, and the terminal normalization
and morph-map multiply raise a shape error instead of returning. -/
theorem claim_C6_counterexample :
    morphBuffer true dOne [0] eTwo (some 150) 2 [0, 1] dOne =
      Except.error "dimension mismatch" := by
  have h0 : dataSum eTwo 2 [0] 0 = 1 := by
    simp [dataSum, eTwo, Finset.sum_range_succ]
  have h1 : dataSum eTwo 2 [0] 1 = 0 := by
    simp [dataSum, eTwo, Finset.sum_range_succ]
  have hfix : activeList eTwo 2 [0] = [0] := by
    simp [activeList, List.range_succ, h0, h1]
  obtain ⟨hk, hidx⟩ :=
    morphLoop_smooth_exhaust eTwo 2 149 99 0 [0] dOne (by omega) hfix
  have hk99 : (morphLoop eTwo 2 (some 149) 99 0 [0] dOne).1 = 99 := by
    simpa using hk
  simp [morphBuffer, morphBufferRun, hk99, hidx, loopDone]

/-! ### Assembler row count, hemisphere skipping, destination reversal
(claims C3, C4, C10) -/

lemma computeMorphMatrix_snd (meshEdges : ℕ → Mat) (nVerts : ℕ → ℕ)
    (maps : ℕ → Mat) (verticesFrom verticesTo : List (List ℕ))
    (smooth : Option ℕ) (xhemi : Bool) (out : SpMat × List (List ℕ))
    (h : computeMorphMatrix meshEdges nVerts maps verticesFrom verticesTo smooth
      xhemi = Except.ok out) :
    out.2 = if xhemi then verticesTo.reverse else verticesTo := by
  unfold computeMorphMatrix at h
  split at h
  all_goals dsimp only [] at h
  all_goals split at h
  all_goals
    first
      | exact Except.noConfusion h
      | (simp only [Except.ok.injEq] at h
         rw [← h]
         simp [*])

/-- Claim C10: with `xhemi = True` the assembler reverses the caller
supplied destination vertex-list pair (in the source: in place, so the
caller observes the reversal) and the reversed pair is what the assembled
operator stores as `vertices_to`; with `xhemi = False` the pair passes
through unchanged. -/
theorem claim_C10_xhemi_reverses_vertices_to (meshEdges : ℕ → Mat)
    (nVerts : ℕ → ℕ) (maps : ℕ → Mat) (verticesFrom verticesTo : List (List ℕ))
    (smooth : Option ℕ) :
    (∀ out, computeMorphMatrix meshEdges nVerts maps verticesFrom verticesTo
        smooth true = Except.ok out → out.2 = verticesTo.reverse) ∧
      (∀ out, computeMorphMatrix meshEdges nVerts maps verticesFrom verticesTo
        smooth false = Except.ok out → out.2 = verticesTo) ∧
      (∀ (subjectFrom srcSubject : Option String) (subjectTo : String)
        (xhemi : Bool) (m : SourceMorph),
        computeSourceMorphSurface subjectFrom srcSubject subjectTo meshEdges
          nVerts maps verticesFrom verticesTo smooth xhemi = Except.ok m →
        m.vertices_to = if xhemi then verticesTo.reverse else verticesTo) := by
  refine ⟨?_, ?_, ?_⟩
  · intro out h
    simpa using computeMorphMatrix_snd meshEdges nVerts maps verticesFrom
      verticesTo smooth true out h
  · intro out h
    simpa using computeMorphMatrix_snd meshEdges nVerts maps verticesFrom
      verticesTo smooth false out h
  · intro subjectFrom srcSubject subjectTo xhemi m h
    unfold computeSourceMorphSurface at h
    split at h
    · exact Except.noConfusion h
    · dsimp only [] at h
      split at h
      · exact Except.noConfusion h
      · next mat vtF heq =>
        split at h
        · simp only [Except.ok.injEq] at h
          rw [← h]
          exact computeMorphMatrix_snd meshEdges nVerts maps verticesFrom
            verticesTo smooth xhemi (mat, vtF) heq
        · exact Except.noConfusion h

/-- Claim C10 witness: the concrete `xhemi = True` and `xhemi = False`
assemblies return the reversed respectively unchanged destination pair. -/
theorem claim_C10_xhemi_reverses_vertices_to_witness :
    wCmmXOut.2 = wVerticesTo.reverse ∧ wCmmOut.2 = wVerticesTo ∧
      wMorphX.vertices_to = wVerticesTo.reverse := by
  have h := claim_C10_xhemi_reverses_vertices_to wMeshEdges wNVerts wMaps
    wSrcData wVerticesTo (some 1)
  refine ⟨h.1 wCmmXOut rfl, h.2.1 wCmmOut rfl, ?_⟩
  have hx := h.2.2 (some "a") (some "a") "fsaverage" true wMorphX rfl
  simpa using hx

/-- Claim C3: a successfully assembled surface morph (the `sparse=False`
path) has exactly `sum(len(v) for v in vertices_to)` rows, `vertices_to`
being the destination lists stored on the operator. -/
theorem claim_C3_row_count_invariant (subjectFrom srcSubject : Option String)
    (subjectTo : String) (meshEdges : ℕ → Mat) (nVerts : ℕ → ℕ)
    (maps : ℕ → Mat) (srcData verticesTo : List (List ℕ)) (smooth : Option ℕ)
    (xhemi : Bool) (m : SourceMorph)
    (h : computeSourceMorphSurface subjectFrom srcSubject subjectTo meshEdges
      nVerts maps srcData verticesTo smooth xhemi = Except.ok m) :
    m.morph_mat.rows = (m.vertices_to.map List.length).sum := by
  unfold computeSourceMorphSurface at h
  split at h
  · exact Except.noConfusion h
  · dsimp only [] at h
    split at h
    · exact Except.noConfusion h
    · split at h
      · next hrows =>
        simp only [Except.ok.injEq] at h
        rw [← h]
        exact hrows
      · exact Except.noConfusion h

/-- Claim C3 witness: the concrete assembly satisfies the row invariant. -/
theorem claim_C3_row_count_invariant_witness :
    wMorph.morph_mat.rows = (wMorph.vertices_to.map List.length).sum :=
  claim_C3_row_count_invariant (some "a") (some "a") "fsaverage" wMeshEdges
    wNVerts wMaps wSrcData wVerticesTo (some 1) false wMorph rfl

/-- Claim C4: a hemisphere with empty source vertices is skipped entirely:
with both hemispheres empty the assembler raises the fatal
`Empty morph-matrix` error (for either `xhemi` value), and with exactly one
non-empty hemisphere - again for either `xhemi` value, with the crossed
destination hemisphere and reversed destination lists under `xhemi` - the
assembled matrix is exactly that single hemisphere-run matrix (shape
included), not a block diagonal with an empty block. -/
theorem claim_C4_empty_hemisphere_handling (meshEdges : ℕ → Mat)
    (nVerts : ℕ → ℕ) (maps : ℕ → Mat) (verticesTo : List (List ℕ))
    (smooth : Option ℕ) (x : ℕ) (xs : List ℕ) :
    computeMorphMatrix meshEdges nVerts maps [[], []] verticesTo smooth false =
        Except.error "Empty morph-matrix" ∧
      computeMorphMatrix meshEdges nVerts maps [[], []] verticesTo smooth true =
        Except.error "Empty morph-matrix" ∧
      (∀ out, computeMorphMatrix meshEdges nVerts maps [x :: xs, []] verticesTo
          smooth false = Except.ok out →
        morphHemiOne meshEdges nVerts maps [x :: xs, []] verticesTo smooth 0 0 =
          Except.ok (some out.1)) ∧
      (∀ out, computeMorphMatrix meshEdges nVerts maps [[], x :: xs] verticesTo
          smooth false = Except.ok out →
        morphHemiOne meshEdges nVerts maps [[], x :: xs] verticesTo smooth 1 1 =
          Except.ok (some out.1)) ∧
      (∀ out, computeMorphMatrix meshEdges nVerts maps [x :: xs, []] verticesTo
          smooth true = Except.ok out →
        morphHemiOne meshEdges nVerts maps [x :: xs, []] verticesTo.reverse
          smooth 0 1 = Except.ok (some out.1)) ∧
      (∀ out, computeMorphMatrix meshEdges nVerts maps [[], x :: xs] verticesTo
          smooth true = Except.ok out →
        morphHemiOne meshEdges nVerts maps [[], x :: xs] verticesTo.reverse
          smooth 1 0 = Except.ok (some out.1)) := by
  refine ⟨?_, ?_, ?_, ?_, ?_, ?_⟩
  · simp [computeMorphMatrix, morphHemis, morphHemiOne]
  · simp [computeMorphMatrix, morphHemis, morphHemiOne]
  · intro out h
    have hskip : morphHemiOne meshEdges nVerts maps [x :: xs, []] verticesTo
        smooth 1 1 = Except.ok none := by
      simp [morphHemiOne]
    rcases h00 : morphHemiOne meshEdges nVerts maps [x :: xs, []] verticesTo
        smooth 0 0 with s | o
    · simp only [computeMorphMatrix, morphHemis, h00, hskip, Bool.false_eq_true,
        if_false] at h
      exact Except.noConfusion h
    · rcases o with _ | mm
      · simp only [computeMorphMatrix, morphHemis, h00, hskip,
          Bool.false_eq_true, if_false] at h
        exact Except.noConfusion h
      · simp only [computeMorphMatrix, morphHemis, h00, hskip,
          Bool.false_eq_true, if_false, Except.ok.injEq] at h
        rw [← h]
  · intro out h
    have hskip : morphHemiOne meshEdges nVerts maps [[], x :: xs] verticesTo
        smooth 0 0 = Except.ok none := by
      simp [morphHemiOne]
    rcases h11 : morphHemiOne meshEdges nVerts maps [[], x :: xs] verticesTo
        smooth 1 1 with s | o
    · simp only [computeMorphMatrix, morphHemis, h11, hskip, Bool.false_eq_true,
        if_false] at h
      exact Except.noConfusion h
    · rcases o with _ | mm
      · simp only [computeMorphMatrix, morphHemis, h11, hskip,
          Bool.false_eq_true, if_false] at h
        exact Except.noConfusion h
      · simp only [computeMorphMatrix, morphHemis, h11, hskip,
          Bool.false_eq_true, if_false, Except.ok.injEq] at h
        rw [← h]
  · intro out h
    have hskip : morphHemiOne meshEdges nVerts maps [x :: xs, []]
        verticesTo.reverse smooth 1 0 = Except.ok none := by
      simp [morphHemiOne]
    rcases h01 : morphHemiOne meshEdges nVerts maps [x :: xs, []]
        verticesTo.reverse smooth 0 1 with s | o
    · simp [computeMorphMatrix, morphHemis, h01, hskip] at h
    · rcases o with _ | mm
      · simp [computeMorphMatrix, morphHemis, h01, hskip] at h
      · simp only [computeMorphMatrix, morphHemis, h01, hskip, if_true,
          eq_self_iff_true, Except.ok.injEq] at h
        rw [← h]
  · intro out h
    have hskip : morphHemiOne meshEdges nVerts maps [[], x :: xs]
        verticesTo.reverse smooth 0 1 = Except.ok none := by
      simp [morphHemiOne]
    rcases h10 : morphHemiOne meshEdges nVerts maps [[], x :: xs]
        verticesTo.reverse smooth 1 0 with s | o
    · simp [computeMorphMatrix, morphHemis, h10, hskip] at h
    · rcases o with _ | mm
      · simp [computeMorphMatrix, morphHemis, h10, hskip] at h
      · simp only [computeMorphMatrix, morphHemis, h10, hskip, if_true,
          eq_self_iff_true, Except.ok.injEq] at h
        rw [← h]

/-- Claim C4 witness: concrete single-hemisphere assemblies for both `xhemi`
values and a concrete both-empty rejection. -/
theorem claim_C4_empty_hemisphere_handling_witness :
    computeMorphMatrix wMeshEdges wNVerts wMaps [[], []] wVerticesTo (some 1)
        false = Except.error "Empty morph-matrix" ∧
      morphHemiOne wMeshEdges wNVerts wMaps [[0], []] wVerticesTo (some 1) 0 0 =
        Except.ok (some wCmmOut.1) ∧
      morphHemiOne wMeshEdges wNVerts wMaps [[0], []] wVerticesTo.reverse
        (some 1) 0 1 = Except.ok (some wCmmXOut.1) := by
  have h := claim_C4_empty_hemisphere_handling wMeshEdges wNVerts wMaps
    wVerticesTo (some 1) 0 []
  exact ⟨h.1, h.2.2.1 wCmmOut rfl, h.2.2.2.2.1 wCmmXOut rfl⟩

/-! ### Apply does not mutate the operator (claim C8) -/

/-- Claim C8: applying an assembled operator never mutates it.  The only
attribute write in `__call__` fills `subject_from` when it is `None`, and an
assembled operator always carries a non-`None` `subject_from` (it is
validated by `_check_subject_from` during assembly), so for assembled
operators the state after any call - succeeding or failing - is unchanged. -/
theorem claim_C8_call_does_not_mutate :
    (∀ (m : SourceMorph) (stc : SourceEstimateData), m.subject_from ≠ none →
      (sourceMorphCall m stc).1 = m) ∧
      (∀ (subjectFrom srcSubject : Option String) (subjectTo : String)
        (meshEdges : ℕ → Mat) (nVerts : ℕ → ℕ) (maps : ℕ → Mat)
        (srcData verticesTo : List (List ℕ)) (smooth : Option ℕ) (xhemi : Bool)
        (m : SourceMorph),
        computeSourceMorphSurface subjectFrom srcSubject subjectTo meshEdges
          nVerts maps srcData verticesTo smooth xhemi = Except.ok m →
        m.subject_from ≠ none) := by
  constructor
  · intro m stc hm
    unfold sourceMorphCall
    dsimp only []
    rw [if_neg hm]
    split <;> split <;> rfl
  · intro subjectFrom srcSubject subjectTo meshEdges nVerts maps srcData
      verticesTo smooth xhemi m h
    unfold computeSourceMorphSurface at h
    split at h
    · exact Except.noConfusion h
    · dsimp only [] at h
      split at h
      · exact Except.noConfusion h
      · split at h
        · simp only [Except.ok.injEq] at h
          rw [← h]
          simp
        · exact Except.noConfusion h

/-- Claim C8 witness: the concrete assembled operator is unchanged by a
call, and its `subject_from` is set. -/
theorem claim_C8_call_does_not_mutate_witness :
    (sourceMorphCall wMorph wStc).1 = wMorph ∧ wMorph.subject_from ≠ none := by
  have hsf : wMorph.subject_from ≠ none :=
    claim_C8_call_does_not_mutate.2 (some "a") (some "a") "fsaverage" wMeshEdges
      wNVerts wMaps wSrcData wVerticesTo (some 1) false wMorph rfl
  exact ⟨claim_C8_call_does_not_mutate.1 wMorph wStc hsf, hsf⟩

/-! ### Persistence round trip (claim C9) -/

lemma affineMap_state_roundtrip (o : Option AffineMap) :
    (o.map AffineMap.state).map AffineMap.mk = o := by
  cases o with
  | none => rfl
  | some a => cases a; rfl

/-- Claim C9: saving an operator and reading it back restores an operator
with bit-identical configuration and morph matrix, and applying the restored
operator to any estimate gives exactly the result of applying the original
(the persistence layer itself is spec-modelled as a faithful key-value
store, see `saveSourceMorph`). -/
theorem claim_C9_save_load_roundtrip (m : SourceMorph) :
    readSourceMorph (saveSourceMorph m) = m ∧
      ∀ stc, sourceMorphCall (readSourceMorph (saveSourceMorph m)) stc =
        sourceMorphCall m stc := by
  have hrt : readSourceMorph (saveSourceMorph m) = m := by
    cases m with
    | mk sf st k na ns sp sm xh mm vt msh mz ma psa sdr sd =>
      simp only [readSourceMorph, saveSourceMorph]
      rw [affineMap_state_roundtrip psa, affineMap_state_roundtrip sdr]
  exact ⟨hrt, fun stc => by rw [hrt]⟩

/-! ### Vertex resolver duplicate detection (claim C5) -/

lemma hasAdjDup_eq_false_iff (l : List ℕ) :
    hasAdjDup l = false ↔ l.Chain' (· ≠ ·) := by
  induction l with
  | nil => simp [hasAdjDup]
  | cons a t ih =>
    cases t with
    | nil => simp [hasAdjDup]
    | cons b t2 =>
      have hstep : hasAdjDup (a :: b :: t2) = ((a == b) || hasAdjDup (b :: t2)) := by
        simp [hasAdjDup]
      rw [hstep, List.chain'_cons, ← ih]
      simp [Bool.or_eq_false_iff]

lemma sortedHemi_perm (l : List ℕ) : (sortedHemi l).Perm l :=
  List.perm_insertionSort _ l

lemma sortedHemi_sorted_le (l : List ℕ) : (sortedHemi l).Sorted (· ≤ ·) :=
  List.sorted_insertionSort _ l

lemma sorted_le_chain_ne_sorted_lt (l : List ℕ) (hs : l.Sorted (· ≤ ·))
    (hc : l.Chain' (· ≠ ·)) : l.Sorted (· < ·) := by
  have hle : l.Chain' (· ≤ ·) := List.Pairwise.chain' hs
  have hlt : l.Chain' (· < ·) := by
    rw [List.chain'_iff_get] at hle hc ⊢
    intro i hi
    exact lt_of_le_of_ne (hle i hi) (hc i hi)
  exact List.chain'_iff_pairwise.mp hlt

lemma sortedHemi_noAdjDup_iff_nodup (l : List ℕ) :
    hasAdjDup (sortedHemi l) = false ↔ l.Nodup := by
  rw [hasAdjDup_eq_false_iff]
  constructor
  · intro hc
    have hlt := sorted_le_chain_ne_sorted_lt (sortedHemi l)
      (sortedHemi_sorted_le l) hc
    have hnd : (sortedHemi l).Nodup := hlt.imp (fun h => ne_of_lt h)
    exact ((sortedHemi_perm l).nodup_iff).mp hnd
  · intro hnd
    have hnd2 : (sortedHemi l).Nodup := ((sortedHemi_perm l).nodup_iff).mpr hnd
    exact List.Pairwise.chain' hnd2

/-- Claim C5: on the general integer-grade path, any duplicate produced by
the nearest-neighbor mapping makes `grade_to_vertices` raise the error that
names the offending grade; a successful return is never deduplicated or
truncated (each hemisphere list is a permutation of its raw mapping result)
and each returned list is sorted strictly increasing. -/
theorem claim_C5_duplicate_mapping_rejected (subject : String) (g : ℕ)
    (nearestL nearestR : List ℕ) (lhsN rhsN : ℕ)
    (hfast : ¬ (subject = "fsaverage" ∧ g = 5)) :
    ((¬ nearestL.Nodup ∨ ¬ nearestR.Nodup) →
      ∃ nv, gradeToVertices subject (Grade.int g) nearestL nearestR lhsN rhsN =
        Except.error (GtvError.duplicateVertices g subject nv)) ∧
      ∀ vs, gradeToVertices subject (Grade.int g) nearestL nearestR lhsN rhsN =
          Except.ok vs →
        vs = [sortedHemi nearestL, sortedHemi nearestR] ∧
          (sortedHemi nearestL).Perm nearestL ∧
          (sortedHemi nearestR).Perm nearestR ∧
          nearestL.Nodup ∧ nearestR.Nodup ∧
          (sortedHemi nearestL).Sorted (· < ·) ∧
          (sortedHemi nearestR).Sorted (· < ·) := by
  have hguard : ¬ (subject = "fsaverage" ∧ Grade.int g = Grade.int 5) := by
    intro hc
    exact hfast ⟨hc.1, by simpa using hc.2⟩
  constructor
  · intro hdup
    by_cases hL : hasAdjDup (sortedHemi nearestL) = true
    · refine ⟨(sortedHemi nearestL).length, ?_⟩
      unfold gradeToVertices
      rw [if_neg hguard]
      simp [List.find?, hL]
    · have hLnd : nearestL.Nodup :=
        (sortedHemi_noAdjDup_iff_nodup nearestL).mp (by simpa using hL)
      have hR : hasAdjDup (sortedHemi nearestR) = true := by
        rcases hdup with hdL | hdR
        · exact absurd hLnd hdL
        · by_contra hcon
          exact hdR ((sortedHemi_noAdjDup_iff_nodup nearestR).mp
            (by simpa using hcon))
      refine ⟨(sortedHemi nearestR).length, ?_⟩
      unfold gradeToVertices
      rw [if_neg hguard]
      simp only [Bool.not_eq_true] at hL
      simp [List.find?, hL, hR]
  · intro vs h
    unfold gradeToVertices at h
    rw [if_neg hguard] at h
    by_cases hL : hasAdjDup (sortedHemi nearestL) = true
    · simp [List.find?, hL] at h
    · by_cases hR : hasAdjDup (sortedHemi nearestR) = true
      · simp only [Bool.not_eq_true] at hL
        simp [List.find?, hL, hR] at h
      · simp only [Bool.not_eq_true] at hL hR
        simp only [List.find?, hL, hR, Except.ok.injEq] at h
        have hLnd : nearestL.Nodup :=
          (sortedHemi_noAdjDup_iff_nodup nearestL).mp hL
        have hRnd : nearestR.Nodup :=
          (sortedHemi_noAdjDup_iff_nodup nearestR).mp hR
        refine ⟨h.symm, sortedHemi_perm nearestL, sortedHemi_perm nearestR,
          hLnd, hRnd, ?_, ?_⟩
        · exact sorted_le_chain_ne_sorted_lt _ (sortedHemi_sorted_le nearestL)
            ((hasAdjDup_eq_false_iff _).mp hL)
        · exact sorted_le_chain_ne_sorted_lt _ (sortedHemi_sorted_le nearestR)
            ((hasAdjDup_eq_false_iff _).mp hR)

/-- Claim C5 witness: a duplicate right-hemisphere mapping is rejected with
the grade in the error, and a clean mapping is returned sorted. -/
theorem claim_C5_duplicate_mapping_rejected_witness :
    ((¬ ([0] : List ℕ).Nodup ∨ ¬ ([1, 1] : List ℕ).Nodup) →
      ∃ nv, gradeToVertices "s" (Grade.int 3) [0] [1, 1] 0 0 =
        Except.error (GtvError.duplicateVertices 3 "s" nv)) ∧
      ∀ vs, gradeToVertices "s" (Grade.int 3) [0] [1, 1] 0 0 = Except.ok vs →
        vs = [sortedHemi [0], sortedHemi [1, 1]] ∧
          (sortedHemi [0]).Perm [0] ∧ (sortedHemi [1, 1]).Perm [1, 1] ∧
          ([0] : List ℕ).Nodup ∧ ([1, 1] : List ℕ).Nodup ∧
          (sortedHemi [0]).Sorted (· < ·) ∧
          (sortedHemi [1, 1]).Sorted (· < ·) :=
  claim_C5_duplicate_mapping_rejected "s" 3 [0] [1, 1] 0 0 (by simp)

/-! ### Vector data morphs component-wise (claim C7) -/

/-- Claim C7: the vector apply path (flatten components into the time axis,
multiply by the morph matrix, reshape back) acts on each of the three
components exactly as the scalar multiply acts on that component slice, and
the vector branch of `_morph_buffer` is by construction the scalar
`_morph_buffer` run on each component slice; the vertex dimension is the
only one that changes. -/
theorem claim_C7_vector_component_independence :
    (∀ (m : SpMat) (data : ℕ → ℕ → ℕ → ℚ) (nSamples i d t : ℕ), t < nSamples →
      applyMorphVector m data nSamples i d t =
        applyMorphScalar m (fun j => data j d) i t) ∧
      (∀ (useSparse : Bool) (data : ℕ → ℕ → ℕ → ℚ) (idxUse : List ℕ) (e : Mat)
        (smooth : Option ℕ) (n : ℕ) (nearest : List ℕ) (maps : Mat)
        (r : ℕ → ℕ → ℕ → ℚ),
        morphBufferVec useSparse data idxUse e smooth n nearest maps =
          Except.ok r →
        ∀ dim, dim < 3 → ∃ p,
          morphBuffer useSparse (fun v t2 => data v dim t2) idxUse e smooth n
            nearest maps = Except.ok p ∧
          ∀ i t2, r i dim t2 = p.1 i t2) := by
  constructor
  · intro m data nSamples i d t ht
    unfold applyMorphVector applyMorphScalar reshapeFlat
    apply Finset.sum_congr rfl
    intro j _
    have hdiv : (d * nSamples + t) / nSamples = d := by
      rw [Nat.add_comm, Nat.add_mul_div_right _ _ (by omega : 0 < nSamples),
        Nat.div_eq_of_lt ht]
      omega
    have hmod : (d * nSamples + t) % nSamples = t := by
      rw [Nat.add_comm, Nat.add_mul_mod_self_right, Nat.mod_eq_of_lt ht]
    rw [hdiv, hmod]
  · intro useSparse data idxUse e smooth n nearest maps r h
    unfold morphBufferVec at h
    split at h
    · next r0 r1 r2 heq0 heq1 heq2 =>
      simp only [Except.ok.injEq] at h
      intro dim hdim
      match dim, hdim with
      | 0, _ =>
        refine ⟨r0, heq0, ?_⟩
        intro i t2
        rw [← h]
        simp
      | 1, _ =>
        refine ⟨r1, heq1, ?_⟩
        intro i t2
        rw [← h]
        simp
      | 2, _ =>
        refine ⟨r2, heq2, ?_⟩
        intro i t2
        rw [← h]
        simp
    · exact Except.noConfusion h
    · exact Except.noConfusion h
    · exact Except.noConfusion h

/-- Claim C7 witness: concrete slice equality for the scalar reshape path
and a concrete component of a vector morph-buffer run. -/
theorem claim_C7_vector_component_independence_witness :
    applyMorphVector ⟨1, 1, fun _ _ => 1⟩ dVec 1 0 0 0 =
      applyMorphScalar ⟨1, 1, fun _ _ => 1⟩ (fun j => dVec j 0) 0 0 ∧
      ∃ p, morphBuffer false (fun v t2 => dVec v 0 t2) [0] eOne (some 1) 1 [0]
          eOne = Except.ok p ∧
        ∀ i t2, wVec i 0 t2 = p.1 i t2 :=
  ⟨claim_C7_vector_component_independence.1 ⟨1, 1, fun _ _ => 1⟩ dVec 1 0 0 0
      (by decide),
    claim_C7_vector_component_independence.2 false dVec [0] eOne (some 1) 1 [0]
      eOne wVec rfl 0 (by decide)⟩

end MneMorph
